import Mathlib

/-!
# Verification of the live CSV log viewer's tailing and parsing pipeline

Shallow embedding of the core of `ProjectLambdaLiveLogViewer`:

* `src/file_watcher.py` — `CSVFileWatcher` (initial-position scan, incremental
  line reading, truncation/rotation handling).  Files are modelled as byte
  sequences (`List Nat`); the watcher opens the file in binary mode and locates
  line boundaries on raw bytes, so this is the level the source itself works at.
  The `decode('utf-8', errors='ignore')` step is the identity on the ASCII
  content all of these properties concern, so emitted lines are modelled as the
  stripped byte sequences of the lines.
* `src/csv_parser.py` — `CSVParser` (header-field name/unit extraction, row
  parsing).  Text is modelled as `List Char`.
* `src/data_display.py` / `src/main_window.py` — the max-magnitude statistics
  update and the startup backfill path.
-/

/-! ## Generic helpers -/

/-- ASCII whitespace bytes, as stripped by Python's `str.strip()`
(space, `\t`, `\n`, `\r`, `\v`, `\f`). -/
def isWsByte (b : Nat) : Bool :=
  b == 32 || b == 9 || b == 10 || b == 13 || b == 11 || b == 12

/-- Remove the trailing run of elements satisfying `p`. -/
def dropTrail {α : Type} (p : α → Bool) (l : List α) : List α :=
  (l.reverse.dropWhile p).reverse

/-- Remove the leading and trailing runs of elements satisfying `p`:
the shape of Python's `str.strip()`. -/
def stripEnds {α : Type} (p : α → Bool) (l : List α) : List α :=
  (dropTrail p l).dropWhile p

/-- Model of Python `str.strip()` at the byte level. -/
def stripBytes (l : List Nat) : List Nat := stripEnds isWsByte l

/-- The byte sequence of an ASCII string (UTF-8 agrees with code points there). -/
def bytesOf (s : String) : List Nat := s.data.map Char.toNat

/-! ## `CSVFileWatcher` (src/file_watcher.py) -/

/-- The mutable position state of `CSVFileWatcher`
(`self.last_position`, `self.last_known_size`, file_watcher.py lines 20–21). -/
structure WatcherState where
  last_position : Nat
  last_known_size : Nat
deriving Repr, DecidableEq

/-- Model of Python `chunk.rfind(b)` restricted to the newline byte
(file_watcher.py line 43): the index of the last `10` in `l`, if any. -/
def rfindNl : List Nat → Option Nat
  | [] => none
  | b :: rest =>
    match rfindNl rest with
    | some j => some (j + 1)
    | none => if b == 10 then some 0 else none

/-- `CSVFileWatcher._read_initial_position` (file_watcher.py lines 24–61) for an
existing file: cache the size; an empty file gives offset 0; otherwise read the
final `min 1024 size` bytes and put the offset just after the last newline of
that chunk; with no newline in the chunk, check whether the file's very last
character is a newline (a branch that cannot fire, retained from the source) and
otherwise fall back to the start of the chunk.  The source reads the chunk in
text mode; on the ASCII content these properties concern, character positions
and byte positions coincide. -/
def readInitialPosition (file : List Nat) : WatcherState :=
  let file_size := file.length
  if file_size = 0 then { last_position := 0, last_known_size := 0 }
  else
    let chunk_size := min 1024 file_size
    let chunk := file.drop (file_size - chunk_size)
    match rfindNl chunk with
    | some idx =>
      { last_position := file_size - chunk_size + idx + 1, last_known_size := file_size }
    | none =>
      if file.getLast? = some 10 then
        { last_position := file_size, last_known_size := file_size }
      else
        { last_position := file_size - chunk_size, last_known_size := file_size }

/-- The newline-splitting loop of `_read_new_lines` (file_watcher.py lines
103–127): `cur` is the reversed prefix of the line being scanned; returns the
complete (newline-terminated) lines in order together with `bytes_processed`,
the count of bytes belonging to complete lines including their newline bytes.
Trailing bytes after the final newline contribute nothing. -/
def splitLinesAux (cur : List Nat) : List Nat → List (List Nat) × Nat
  | [] => ([], 0)
  | b :: rest =>
    if b == 10 then
      let r := splitLinesAux [] rest
      (cur.reverse :: r.1, cur.length + 1 + r.2)
    else
      splitLinesAux (b :: cur) rest

/-- `CSVFileWatcher._read_new_lines` (file_watcher.py lines 75–134).  Returns
the new state and the emitted lines (each emitted line is the decoded, stripped
text of one complete line; blank lines are skipped).  The size short-circuit,
the truncation reset, and the offset advance over exactly the complete lines
mirror the source. -/
def readNewLines (file : List Nat) (s : WatcherState) : WatcherState × List (List Nat) :=
  let current_size := file.length
  if current_size = s.last_known_size then (s, [])
  else
    let pos := if current_size < s.last_position then 0 else s.last_position
    if current_size > pos then
      let new_data := (file.drop pos).take (current_size - pos)
      let r := splitLinesAux [] new_data
      ({ last_position := pos + r.2, last_known_size := current_size },
        (r.1.map stripBytes).filter (fun l => !l.isEmpty))
    else
      ({ last_position := pos, last_known_size := current_size }, [])

/-- `CSVFileWatcher.on_created` (file_watcher.py lines 68–73): on a
file-recreated notification for the watched path, reset `last_position` and
`last_known_size` to 0 and read from the start. -/
def onCreated (file : List Nat) (_s : WatcherState) : WatcherState × List (List Nat) :=
  readNewLines file { last_position := 0, last_known_size := 0 }

example :
    readNewLines (bytesOf "h1,h2\n1,2\n3,4\n") (readInitialPosition (bytesOf "h1,h2\n1,2\n")) =
      ({ last_position := 14, last_known_size := 14 }, [bytesOf "3,4"]) := by decide

example :
    readInitialPosition (bytesOf "h1,h2\n1,2\n") =
      { last_position := 10, last_known_size := 10 } := by decide

example :
    readNewLines (bytesOf "ab\n5,6") { last_position := 3, last_known_size := 3 } =
      ({ last_position := 3, last_known_size := 6 }, []) := by decide

example :
    readNewLines (bytesOf "ab\n5,6\n7,8\n") { last_position := 3, last_known_size := 6 } =
      ({ last_position := 11, last_known_size := 11 }, [bytesOf "5,6", bytesOf "7,8"]) := by
  decide

/-! ## `CSVParser` (src/csv_parser.py) -/

/-- Whitespace as stripped by Python's `str.strip()` and matched by `\s`
(space, `\t`, `\n`, `\r`, `\v`, `\f`), on ASCII characters. -/
def isPyWs (c : Char) : Bool := c.isWhitespace || c == '\x0b' || c == '\x0c'

/-- Remove trailing whitespace. -/
def dropTrailWs (l : List Char) : List Char := dropTrail isPyWs l

/-- Model of Python `str.strip()` on text. -/
def pstrip (l : List Char) : List Char := stripEnds isPyWs l

/-- Whether index `i` of the stripped header field `s` can serve as the opening
parenthesis in a match of the regex `^(.+?)\s*\(([^)]+)\)\s*$`
(csv_parser.py line 32), given that `s` ends with `)`: the character there is
`(`; the unit text `s[i+1 .. len-2]` (matched by `[^)]+`) is nonempty and
`)`-free; and the name `s[0..i)` with its trailing whitespace removed (the
whitespace is matched by `\s*`) is a legal `.+?` match: nonempty and
newline-free. -/
def validOpen (s : List Char) (i : Nat) : Bool :=
  s.getD i ' ' == '(' && i + 2 < s.length &&
    ((s.drop (i + 1)).take (s.length - 2 - i)).all (fun c => c != ')') &&
    !(dropTrailWs (s.take i)).isEmpty &&
    (dropTrailWs (s.take i)).all (fun c => c != '\n')

/-- The opening-parenthesis index the lazy `.+?` match settles on: the least
viable one. -/
def findOpen (s : List Char) : Option Nat :=
  (List.range s.length).find? (validOpen s)

/-- One header field of `CSVParser._parse_header` (csv_parser.py lines 30–42):
`header.strip()` is matched against `^(.+?)\s*\(([^)]+)\)\s*$`; on a match the
name is group 1 stripped and the unit is group 2 stripped; otherwise the whole
stripped field is the name and the unit is empty.  Since the input to the regex
is already stripped, the final `\s*` is empty, so a match forces the last
character to be `)`. -/
def parseHeaderField (field : List Char) : List Char × List Char :=
  let s := pstrip field
  if s.getLast? = some ')' then
    match findOpen s with
    | some i => (pstrip (s.take i), pstrip ((s.drop (i + 1)).take (s.length - 2 - i)))
    | none => (s, [])
  else (s, [])

/-- The parsed header state of `CSVParser`
(`column_names`, `column_units`, `column_count`, csv_parser.py lines 15–17). -/
structure CSVParser where
  column_names : List (List Char)
  column_units : List (List Char)
  column_count : Nat

/-- `CSVParser._parse_header` (csv_parser.py lines 20–44), given the already
CSV-tokenized header row: parse each field into name and unit;
`column_count` is the number of fields. -/
def parseHeader (header_row : List (List Char)) : CSVParser :=
  { column_names := header_row.map (fun h => (parseHeaderField h).1)
    column_units := header_row.map (fun h => (parseHeaderField h).2)
    column_count := header_row.length }

/-- Comma splitting of a non-blank line: the helper for `splitFields`. -/
def splitFieldsAux : List Char → List (List Char)
  | [] => [[]]
  | c :: rest =>
    if c == ',' then [] :: splitFieldsAux rest
    else
      match splitFieldsAux rest with
      | [] => [[c]]
      | f :: fs => (c :: f) :: fs

/-- Model of `csv.reader([row])` tokenization for the rows this program feeds
it (csv_parser.py line 59): single-line, quote-free records.  A blank line is
tokenized by the `csv` module as a zero-field row `[]` (which is why
`csv.DictReader` can skip blank rows); any other quote-free line splits
exactly at its commas. -/
def splitFields : List Char → List (List Char)
  | [] => []
  | c :: rest => splitFieldsAux (c :: rest)

/-- A Python `dict`: the keys in first-insertion order (each key listed once)
together with the current value of each key.  A loop doing
`result[k] = v` is a fold of `set`. -/
structure PyDict (K V : Type) where
  keys : List K
  lookup : K → Option V

def PyDict.empty {K V : Type} : PyDict K V := { keys := [], lookup := fun _ => none }

def PyDict.set {K V : Type} [DecidableEq K] (d : PyDict K V) (k : K) (v : V) : PyDict K V :=
  { keys := if k ∈ d.keys then d.keys else d.keys ++ [k]
    lookup := fun q => if q = k then some v else d.lookup q }

/-- `len(result)` for a Python dict: the number of (distinct) keys. -/
def PyDict.size {K V : Type} (d : PyDict K V) : Nat := d.keys.length

/-- The record produced for one data row: a Python dict from column name to
stripped raw value. -/
abbrev PyRecord := PyDict (List Char) (List Char)

/-- `CSVParser.parse_row` (csv_parser.py lines 48–71): tokenize the row; if the
field count differs from `column_count`, return `none`; otherwise run
`result[name] = values[i].strip()` over `enumerate(column_names)` (for every
parser built by `parseHeader`, `column_count = column_names.length`, so the
positional pairing is the zip). -/
def parseRow (p : CSVParser) (row : List Char) : Option PyRecord :=
  let values := splitFields row
  if values.length ≠ p.column_count then none
  else
    some ((p.column_names.zip values).foldl
      (fun d nv => d.set nv.1 (pstrip nv.2)) PyDict.empty)

/-- `CSVParser.get_column_info` (csv_parser.py lines 73–80). -/
def getColumnInfo (p : CSVParser) : List (List Char × List Char) :=
  p.column_names.zip p.column_units

example : parseHeaderField "Foo Bar (unit)".data = ("Foo Bar".data, "unit".data) := by decide
example : parseHeaderField "Baz".data = ("Baz".data, []) := by decide
example : parseHeaderField "Air/Fuel Sensor #1 (A)".data = ("Air/Fuel Sensor #1".data, "A".data) := by decide
example : parseHeaderField "A (b) (c)".data = ("A (b)".data, "c".data) := by decide
example : splitFields "1,2,3".data = ["1".data, "2".data, "3".data] := by decide
example : (parseRow (parseHeader ["a".data, "b".data, "c".data]) "1,2".data).isNone = true := by
  decide

/-! ## Max-magnitude statistics and the backfill path
(src/data_display.py, src/main_window.py) -/

/-- A Python float as `float(value_str)` can produce it: a finite value
(exact rationals standing in for the finite doubles that occur here), one of
the two infinities (`float("inf")`, `float("-inf")`), or `float("nan")`. -/
inductive PyFloat where
  | finite (q : ℚ)
  | inf
  | neginf
  | nan
deriving DecidableEq

/-- Python `abs` on floats: `abs(±inf) = inf`, `abs(nan) = nan`. -/
def PyFloat.abs : PyFloat → PyFloat
  | finite q => finite |q|
  | inf => inf
  | neginf => inf
  | nan => nan

/-- IEEE `>` on floats as Python evaluates it: any comparison with `nan` is
false; `inf` exceeds everything but `inf` and `nan`; `-inf` exceeds nothing. -/
def PyFloat.gt : PyFloat → PyFloat → Bool
  | nan, _ => false
  | _, nan => false
  | inf, inf => false
  | inf, _ => true
  | _, inf => false
  | neginf, _ => false
  | finite _, neginf => true
  | finite q, finite r => decide (r < q)

/-- One step of the per-column max-magnitude update of
`DataDisplayWidget.update_data` (data_display.py lines 159–168): a raw value
accepted by `float()` (`some v` — including `inf` and `nan`) becomes the
stored maximum when no maximum is stored yet or when
`abs(value) > abs(stored)` holds under IEEE comparison; a raw value `float()`
rejects (`none`) leaves the aggregate unchanged. -/
def observeValue (cur : Option PyFloat) (raw : Option PyFloat) : Option PyFloat :=
  match raw with
  | none => cur
  | some v =>
    match cur with
    | none => some v
    | some m => if PyFloat.gt v.abs m.abs then some v else some m

/-- The aggregate of one column after a sequence of observed raw values,
starting from an absent `maximum_values` entry. -/
def runMax (vals : List (Option PyFloat)) : Option PyFloat := vals.foldl observeValue none

/-- The display-relevant state of `DataDisplayWidget`
(`current_data`, `maximum_values`, data_display.py lines 22–26). -/
structure DisplayState where
  current_data : Option PyRecord
  maximum_values : PyDict (List Char) PyFloat

/-- `DataDisplayWidget.__init__` state: no data, no maxima. -/
def DisplayState.init : DisplayState :=
  { current_data := none, maximum_values := PyDict.empty }

/-- `DataDisplayWidget.update_data` (data_display.py lines 149–171), with
Python `float(...)` abstracted as the parameter `pv` (`none` when `float()`
raises, otherwise the float it returns, possibly `inf` or `nan`): set
`current_data` and, for each item of the record in insertion order, run the
max-magnitude update on that column. -/
def updateData (pv : List Char → Option PyFloat) (st : DisplayState) (data : PyRecord) :
    DisplayState :=
  { current_data := some data
    maximum_values :=
      data.keys.foldl
        (fun m k =>
          match (data.lookup k).bind pv with
          | none => m
          | some v =>
            match m.lookup k with
            | none => m.set k v
            | some m0 => if PyFloat.gt v.abs m0.abs then m.set k v else m)
        st.maximum_values }

/-- Outcome of a Python call: a normal return, or a `TypeError` raised while
binding the arguments. -/
inductive PyCall (α : Type) where
  | ok (a : α)
  | typeError

/-- Calling `update_data` with keyword arguments.  The Python parameter list of
`DataDisplayWidget.update_data` is `(self, data, update_display=True)`
(data_display.py line 149), so a call passing any keyword other than
`update_display` raises `TypeError` before the body runs. -/
def updateDataKwCall (pv : List Char → Option PyFloat) (st : DisplayState) (data : PyRecord)
    (kwargs : List String) : PyCall DisplayState :=
  if kwargs.all (fun k => k == "update_display") then PyCall.ok (updateData pv st data)
  else PyCall.typeError

/-- Python `content.split('\n')` (main_window.py line 246). -/
def splitNl : List Char → List (List Char)
  | [] => [[]]
  | c :: rest =>
    if c == '\n' then [] :: splitNl rest
    else
      match splitNl rest with
      | [] => [[c]]
      | f :: fs => (c :: f) :: fs

/-- The backward search of `MainWindow._read_existing_data` (main_window.py
lines 256–264): try line indices `i, i-1, …, 1`; the first non-blank line that
parses yields the backfill record. -/
def findBackfillRow (p : CSVParser) (lines : List (List Char)) : Nat → Option PyRecord
  | 0 => none
  | i + 1 =>
    let line := pstrip (lines.getD (i + 1) [])
    if line.isEmpty then findBackfillRow p lines i
    else
      match parseRow p line with
      | some d => some d
      | none => findBackfillRow p lines i

/-- `MainWindow._read_existing_data` (main_window.py lines 225–266): on a
non-empty file with more than one line, walk backward to the last non-blank
parseable data row and call
`update_data(data, update_display=True, track_values=False)`; all exceptions —
including the `TypeError` this keyword call raises — are caught by the
enclosing `except`, which only prints, leaving the display state unchanged.
The file's text is the decoded content (identity on ASCII). -/
def readExistingData (pv : List Char → Option PyFloat) (p : CSVParser) (st : DisplayState)
    (file : List Char) : DisplayState :=
  if file.isEmpty then st
  else
    let ends_with_newline := file.getLast? = some '\n'
    let lines := splitNl file
    if 1 < lines.length then
      let line_index0 := if ends_with_newline then lines.length - 2 else lines.length - 2
      let line_index := if line_index0 < 1 then lines.length - 1 else line_index0
      match findBackfillRow p lines line_index with
      | some data =>
        match updateDataKwCall pv st data ["update_display", "track_values"] with
        | PyCall.ok st2 => st2
        | PyCall.typeError => st
      | none => st
    else st

example :
    runMax [some (PyFloat.finite 5), some (PyFloat.finite (-12)), some (PyFloat.finite 3)] =
      some (PyFloat.finite (-12)) := by decide

example (pv : List Char → Option PyFloat) :
    readExistingData pv (parseHeader ["h1".data, "h2".data]) DisplayState.init
      "h1,h2\n1,2\n".data = DisplayState.init := by
  rfl

/-! ## Generic list lemmas -/

lemma getD_drop {α : Type} (l : List α) (n m : Nat) (d : α) :
    (l.drop n).getD m d = l.getD (n + m) d := by
  simp [List.getD_eq_getElem?_getD, List.getElem?_drop]

lemma getD_mem {α : Type} (l : List α) (d : α) (i : Nat) (h : i < l.length) :
    l.getD i d ∈ l := by
  rw [List.getD_eq_getElem l d h]; exact List.getElem_mem h

lemma getD_append_left {α : Type} (l₁ l₂ : List α) (i : Nat) (d : α) (h : i < l₁.length) :
    (l₁ ++ l₂).getD i d = l₁.getD i d := by
  simp [List.getD_eq_getElem?_getD, List.getElem?_append_left h]

lemma getD_append_right {α : Type} (l₁ l₂ : List α) (i : Nat) (d : α) :
    (l₁ ++ l₂).getD (l₁.length + i) d = l₂.getD i d := by
  simp [List.getD_eq_getElem?_getD, List.getElem?_append_right (Nat.le_add_right _ _)]

lemma find?_eq_some_getD {α : Type} (p : α → Bool) (d : α) :
    ∀ (l : List α) (k : Nat), k < l.length → p (l.getD k d) = true →
      (∀ j, j < k → p (l.getD j d) = false) → l.find? p = some (l.getD k d) := by
  intro l
  induction l with
  | nil => intro k hk _ _; simp at hk
  | cons a t ih =>
    intro k hk hp hmin
    cases k with
    | zero =>
      simp only [List.getD_cons_zero] at hp ⊢
      rw [List.find?_cons_of_pos _ hp]
    | succ k2 =>
      have ha : p a = false := by simpa using hmin 0 (Nat.succ_pos k2)
      have ht := ih k2 (by simpa using Nat.lt_of_succ_lt_succ hk) (by simpa using hp)
        (fun j hj => by simpa using hmin (j + 1) (Nat.succ_lt_succ hj))
      rw [List.find?_cons_of_neg _ (by simp [ha]), ht]
      simp

lemma dropWhile_head_not {α : Type} (p : α → Bool) (l : List α) :
    ∀ a ∈ (l.dropWhile p).head?, p a = false := by
  induction l with
  | nil => simp
  | cons b t ih =>
    by_cases hb : p b = true
    · simpa [List.dropWhile_cons, hb] using ih
    · intro a ha
      rw [List.dropWhile_cons_of_neg hb] at ha
      simp only [List.head?_cons, Option.mem_def, Option.some.injEq] at ha
      subst ha
      exact Bool.eq_false_iff.mpr hb

lemma dropWhile_eq_self_of_head {α : Type} (p : α → Bool) (l : List α)
    (h : ∀ a ∈ l.head?, p a = false) : l.dropWhile p = l := by
  cases l with
  | nil => rfl
  | cons b t =>
    rw [List.dropWhile_cons_of_neg]
    simp [h b (by simp)]

lemma getLast?_dropWhile {α : Type} (p : α → Bool) (l : List α) (h : l.dropWhile p ≠ []) :
    (l.dropWhile p).getLast? = l.getLast? := by
  induction l with
  | nil => simp at h
  | cons b t ih =>
    by_cases hb : p b = true
    · rw [List.dropWhile_cons_of_pos hb] at h ⊢
      rw [ih h]
      cases t with
      | nil => simp at h
      | cons c t2 => exact List.getLast?_cons_cons.symm
    · rw [List.dropWhile_cons_of_neg hb]

lemma stripEnds_head {α : Type} (p : α → Bool) (l : List α) :
    ∀ a ∈ (stripEnds p l).head?, p a = false := dropWhile_head_not p (dropTrail p l)

lemma dropTrail_getLast {α : Type} (p : α → Bool) (l : List α) :
    ∀ a ∈ (dropTrail p l).getLast?, p a = false := by
  intro a ha
  unfold dropTrail at ha
  rw [List.getLast?_reverse] at ha
  exact dropWhile_head_not p l.reverse a ha

lemma stripEnds_getLast {α : Type} (p : α → Bool) (l : List α) :
    ∀ a ∈ (stripEnds p l).getLast?, p a = false := by
  intro a ha
  unfold stripEnds at ha
  by_cases hne : (dropTrail p l).dropWhile p = []
  · rw [hne] at ha; simp at ha
  · rw [getLast?_dropWhile p _ hne] at ha
    exact dropTrail_getLast p l a ha

lemma stripEnds_eq_self {α : Type} (p : α → Bool) (l : List α)
    (hh : ∀ a ∈ l.head?, p a = false) (hl : ∀ a ∈ l.getLast?, p a = false) :
    stripEnds p l = l := by
  unfold stripEnds dropTrail
  rw [dropWhile_eq_self_of_head p l.reverse (by simpa [List.head?_reverse] using hl),
    List.reverse_reverse]
  exact dropWhile_eq_self_of_head p l hh

lemma stripEnds_idem {α : Type} (p : α → Bool) (l : List α) :
    stripEnds p (stripEnds p l) = stripEnds p l :=
  stripEnds_eq_self p _ (stripEnds_head p l) (stripEnds_getLast p l)

lemma stripEnds_subset {α : Type} (p : α → Bool) (l : List α) :
    ∀ a ∈ stripEnds p l, a ∈ l := by
  intro a ha
  unfold stripEnds dropTrail at ha
  have h1 := (List.dropWhile_sublist p).subset ha
  rw [List.mem_reverse] at h1
  have h2 := (List.dropWhile_sublist p).subset h1
  rw [List.mem_reverse] at h2
  exact h2

/-! ## Theorems: the tail reader -/

/-- **C1** (no double-read): for a file whose content is exactly `"h1,h2\n1,2\n"`
when the tail reader is initialized, and to which `"3,4\n"` is appended
afterwards, the next poll emits exactly one line, `"3,4"`, and the line
`"1,2"` is never emitted — no byte before the initial offset is
re-processed. -/
theorem tail_no_double_read :
    readNewLines (bytesOf "h1,h2\n1,2\n" ++ bytesOf "3,4\n")
        (readInitialPosition (bytesOf "h1,h2\n1,2\n")) =
      ({ last_position := 14, last_known_size := 14 }, [bytesOf "3,4"]) ∧
    bytesOf "1,2" ∉
      (readNewLines (bytesOf "h1,h2\n1,2\n" ++ bytesOf "3,4\n")
        (readInitialPosition (bytesOf "h1,h2\n1,2\n"))).2 := by
  decide

/-- **C4** (truncation/rotation reset): whenever a poll observes the current
file size strictly less than the tracked byte offset (and the size changed, so
the cached-size short-circuit does not apply), scanning proceeds as if the
offset had been reset to 0; and an external file-recreated notification for
the watched path forces the same reset — offset and cached size set to 0 —
before reading. -/
theorem truncation_and_recreate_reset (file : List Nat) (s : WatcherState)
    (hchanged : file.length ≠ s.last_known_size)
    (htrunc : file.length < s.last_position) :
    readNewLines file s =
      readNewLines file { last_position := 0, last_known_size := s.last_known_size } ∧
    onCreated file s =
      readNewLines file { last_position := 0, last_known_size := 0 } := by
  refine ⟨?_, rfl⟩
  simp only [readNewLines]
  rw [if_neg hchanged, if_pos htrunc]
  simp
  rw [if_neg hchanged]

theorem truncation_and_recreate_reset_witness :
    readNewLines (bytesOf "x\n") { last_position := 5, last_known_size := 9 } =
      readNewLines (bytesOf "x\n") { last_position := 0, last_known_size := 9 } ∧
    onCreated (bytesOf "x\n") { last_position := 5, last_known_size := 9 } =
      readNewLines (bytesOf "x\n") { last_position := 0, last_known_size := 0 } :=
  truncation_and_recreate_reset (bytesOf "x\n") _ (by decide) (by decide)

/-- Polling after an append, when the offset sits at the old end of file and
the size changed: the watcher reads exactly the appended bytes and advances
over their complete lines. -/
lemma readNewLines_append (file extra : List Nat) (s : WatcherState)
    (hpos : s.last_position = file.length)
    (hsize : file.length + extra.length ≠ s.last_known_size)
    (hne : extra ≠ []) :
    readNewLines (file ++ extra) s =
      ({ last_position := file.length + (splitLinesAux [] extra).2,
         last_known_size := file.length + extra.length },
        ((splitLinesAux [] extra).1.map stripBytes).filter (fun l => !l.isEmpty)) := by
  have hlen : (file ++ extra).length = file.length + extra.length := by simp
  have hepos : 0 < extra.length := List.length_pos.mpr hne
  simp only [readNewLines, hlen, hpos]
  rw [if_neg hsize, if_neg (by omega : ¬ file.length + extra.length < file.length),
    if_pos (by omega : file.length + extra.length > file.length),
    show (file ++ extra).drop file.length = extra from List.drop_left file extra,
    Nat.add_sub_cancel_left, List.take_length]

/-- **C2** (partial-line deferral): for a tail reader whose offset is at the
current end of file (with the size cached), appending `"5,6"` with no trailing
newline and polling emits zero lines and does not advance the offset past those
bytes; subsequently appending `"\n7,8\n"` and polling emits exactly two lines,
`"5,6"` then `"7,8"`, in that order. -/
theorem tail_partial_line_deferral (file : List Nat) (s : WatcherState)
    (hpos : s.last_position = file.length) (hsize : s.last_known_size = file.length) :
    readNewLines (file ++ bytesOf "5,6") s =
      ({ last_position := file.length, last_known_size := file.length + 3 }, []) ∧
    readNewLines (file ++ bytesOf "5,6" ++ bytesOf "\n7,8\n")
        { last_position := file.length, last_known_size := file.length + 3 } =
      ({ last_position := file.length + 8, last_known_size := file.length + 8 },
        [bytesOf "5,6", bytesOf "7,8"]) := by
  constructor
  · have h := readNewLines_append file (bytesOf "5,6") s hpos
      (by rw [hsize]; have e : (bytesOf "5,6").length = 3 := rfl; omega) (by decide)
    rw [h]
    have e1 : splitLinesAux [] (bytesOf "5,6") = ([], 0) := rfl
    have e2 : (bytesOf "5,6").length = 3 := rfl
    rw [e1, e2]
    simp
  · rw [List.append_assoc]
    have h := readNewLines_append file (bytesOf "5,6" ++ bytesOf "\n7,8\n")
      { last_position := file.length, last_known_size := file.length + 3 } rfl
      (by
        have e : (bytesOf "5,6" ++ bytesOf "\n7,8\n").length = 8 := rfl
        dsimp only
        rw [e]
        omega)
      (by decide)
    rw [h]
    have e1 : splitLinesAux [] (bytesOf "5,6" ++ bytesOf "\n7,8\n") =
        ([bytesOf "5,6", bytesOf "7,8"], 8) := rfl
    have e2 : (bytesOf "5,6" ++ bytesOf "\n7,8\n").length = 8 := rfl
    rw [e1, e2, Prod.mk.injEq]
    exact ⟨rfl, by decide⟩

theorem tail_partial_line_deferral_witness :
    readNewLines (bytesOf "a\n" ++ bytesOf "5,6")
        { last_position := 2, last_known_size := 2 } =
      ({ last_position := (bytesOf "a\n").length,
         last_known_size := (bytesOf "a\n").length + 3 }, []) ∧
    readNewLines (bytesOf "a\n" ++ bytesOf "5,6" ++ bytesOf "\n7,8\n")
        { last_position := (bytesOf "a\n").length,
          last_known_size := (bytesOf "a\n").length + 3 } =
      ({ last_position := (bytesOf "a\n").length + 8,
         last_known_size := (bytesOf "a\n").length + 8 },
        [bytesOf "5,6", bytesOf "7,8"]) :=
  tail_partial_line_deferral (bytesOf "a\n")
    { last_position := 2, last_known_size := 2 } rfl rfl

lemma rfindNl_eq_none (l : List Nat) (h : ∀ j, j < l.length → l.getD j 0 ≠ 10) :
    rfindNl l = none := by
  induction l with
  | nil => rfl
  | cons b rest ih =>
    have hb : b ≠ 10 := by simpa using h 0 (by simp)
    have hr : rfindNl rest = none := ih (fun j hj => by
      simpa using h (j + 1) (by simpa using Nat.succ_lt_succ hj))
    simp [rfindNl, hr, hb]

lemma rfindNl_eq_some (l : List Nat) : ∀ (i : Nat), i < l.length → l.getD i 0 = 10 →
    (∀ j, j < l.length → i < j → l.getD j 0 ≠ 10) → rfindNl l = some i := by
  induction l with
  | nil => intro i hi _ _; simp at hi
  | cons b rest ih =>
    intro i hi h10 hlast
    cases i with
    | zero =>
      have hb : b = 10 := by simpa using h10
      have hr : rfindNl rest = none := rfindNl_eq_none rest (fun j hj => by
        simpa using hlast (j + 1) (by simpa using Nat.succ_lt_succ hj) (Nat.succ_pos j))
      simp [rfindNl, hr, hb]
    | succ i2 =>
      have hr : rfindNl rest = some i2 := ih i2 (by simpa using Nat.lt_of_succ_lt_succ hi)
        (by simpa using h10)
        (fun j hjl hji => by
          simpa using hlast (j + 1) (by simpa using Nat.succ_lt_succ hjl)
            (Nat.succ_lt_succ hji))
      simp [rfindNl, hr]

lemma getLast?_eq_getD {α : Type} (d : α) : ∀ (l : List α), l ≠ [] →
    l.getLast? = some (l.getD (l.length - 1) d) := by
  intro l h
  induction l with
  | nil => exact absurd rfl h
  | cons b t ih =>
    cases t with
    | nil => rfl
    | cons c t2 =>
      rw [List.getLast?_cons_cons, ih (by simp)]
      rfl

/-- **C5** (initialize position): for every existing file at open time, the
initial byte offset is set to the position immediately after the last newline
byte found in the bounded window of the final `min 1024 size` bytes scanned
backward from end of file; for an empty file the offset is 0; and if the
scanned-back window contains no newline, the offset falls back to the start of
that window. -/
theorem initial_position_after_last_newline (file : List Nat) :
    (file = [] →
      readInitialPosition file = { last_position := 0, last_known_size := 0 }) ∧
    (file ≠ [] →
      (∀ i, i < min 1024 file.length →
        (file.drop (file.length - min 1024 file.length)).getD i 0 = 10 →
        (∀ j, j < min 1024 file.length → i < j →
          (file.drop (file.length - min 1024 file.length)).getD j 0 ≠ 10) →
        (readInitialPosition file).last_position =
          file.length - min 1024 file.length + i + 1) ∧
      ((∀ j, j < min 1024 file.length →
          (file.drop (file.length - min 1024 file.length)).getD j 0 ≠ 10) →
        (readInitialPosition file).last_position =
          file.length - min 1024 file.length)) := by
  constructor
  · intro h; subst h; rfl
  · intro hne
    have hlpos : 0 < file.length := List.length_pos.mpr hne
    have hwle : min 1024 file.length ≤ file.length := Nat.min_le_right _ _
    have hwpos : 0 < min 1024 file.length := by omega
    have hwlen : (file.drop (file.length - min 1024 file.length)).length
        = min 1024 file.length := by
      rw [List.length_drop]; omega
    constructor
    · intro i hi h10 hlast
      have hfind : rfindNl (file.drop (file.length - min 1024 file.length)) = some i :=
        rfindNl_eq_some _ i (by rw [hwlen]; exact hi) h10
          (fun j hjl hji => hlast j (by rwa [hwlen] at hjl) hji)
      simp only [readInitialPosition]
      rw [if_neg (by omega : ¬ file.length = 0), hfind]
    · intro hnonl
      have hfind : rfindNl (file.drop (file.length - min 1024 file.length)) = none :=
        rfindNl_eq_none _ (fun j hj => hnonl j (by rwa [hwlen] at hj))
      have hlastc : file.getD (file.length - 1) 0 ≠ 10 := by
        have h1 := hnonl (min 1024 file.length - 1) (by omega)
        rw [getD_drop] at h1
        have harith : file.length - min 1024 file.length + (min 1024 file.length - 1)
            = file.length - 1 := by omega
        rwa [harith] at h1
      have hgl : file.getLast? = some (file.getD (file.length - 1) 0) :=
        getLast?_eq_getD 0 file hne
      simp only [readInitialPosition]
      rw [if_neg (by omega : ¬ file.length = 0), hfind,
        if_neg (show ¬ file.getLast? = some 10 by rw [hgl]; simpa using hlastc)]

theorem initial_position_after_last_newline_witness :
    (readInitialPosition (bytesOf "a\nbc")).last_position =
      (bytesOf "a\nbc").length - min 1024 (bytesOf "a\nbc").length + 1 + 1 ∧
    (readInitialPosition (bytesOf "xyz")).last_position =
      (bytesOf "xyz").length - min 1024 (bytesOf "xyz").length := by
  constructor
  · exact ((initial_position_after_last_newline (bytesOf "a\nbc")).2 (by decide)).1 1
      (by decide) (by decide) (by decide)
  · exact ((initial_position_after_last_newline (bytesOf "xyz")).2 (by decide)).2 (by decide)

/-- The bytes the splitting loop counts as processed are exactly the complete
lines, each followed by its newline byte — blank lines included. -/
lemma splitLinesAux_take : ∀ (data : List Nat) (cur : List Nat),
    (cur.reverse ++ data).take ((splitLinesAux cur data).2) =
      ((splitLinesAux cur data).1.map (fun l => l ++ [10])).flatten := by
  intro data
  induction data with
  | nil => intro cur; simp [splitLinesAux]
  | cons b rest ih =>
    intro cur
    by_cases hb : b = 10
    · subst hb
      have hsplit : splitLinesAux cur (10 :: rest) =
          (cur.reverse :: (splitLinesAux [] rest).1,
            cur.length + 1 + (splitLinesAux [] rest).2) := by
        simp [splitLinesAux]
      rw [hsplit]
      have e : cur.reverse ++ 10 :: rest = (cur.reverse ++ [10]) ++ rest := by simp
      have eamt : (cur.reverse :: (splitLinesAux [] rest).1,
          cur.length + 1 + (splitLinesAux [] rest).2).2 =
          (cur.reverse ++ [10]).length + (splitLinesAux [] rest).2 := by simp
      rw [e, eamt, List.take_append, List.map_cons, List.flatten_cons]
      have h0 := ih []
      simp only [List.reverse_nil, List.nil_append] at h0
      rw [h0]
    · have hsplit : splitLinesAux cur (b :: rest) = splitLinesAux (b :: cur) rest := by
        simp [splitLinesAux, hb]
      rw [hsplit]
      have e : cur.reverse ++ b :: rest = (b :: cur).reverse ++ rest := by simp
      rw [e]
      exact ih (b :: cur)

/-- Every poll output is either empty or the blank-filtered stripped lines of
some raw line list. -/
lemma readNewLines_out (file : List Nat) (s : WatcherState) :
    (readNewLines file s).2 = [] ∨ ∃ lines : List (List Nat), (readNewLines file s).2 =
      (lines.map stripBytes).filter (fun l => !l.isEmpty) := by
  simp only [readNewLines]
  repeat' split
  all_goals first | exact Or.inl rfl | exact Or.inr ⟨_, rfl⟩

/-- **C9** (blank lines are never delivered): every line a poll emits is
non-empty after stripping surrounding whitespace; and when a read happens the
byte offset advances past exactly the newline-terminated lines of the newly
read region — blank ones included — so blank lines are consumed but never
emitted. -/
theorem no_blank_lines_delivered (file : List Nat) (s : WatcherState) :
    (∀ l ∈ (readNewLines file s).2, l ≠ [] ∧ stripBytes l = l) ∧
    (∀ pos, file.length ≠ s.last_known_size →
      pos = (if file.length < s.last_position then 0 else s.last_position) →
      pos < file.length →
      (readNewLines file s).1.last_position =
        pos + (splitLinesAux [] ((file.drop pos).take (file.length - pos))).2 ∧
      ((file.drop pos).take (file.length - pos)).take
          (splitLinesAux [] ((file.drop pos).take (file.length - pos))).2 =
        ((splitLinesAux [] ((file.drop pos).take (file.length - pos))).1.map
          (fun l => l ++ [10])).flatten) := by
  constructor
  · intro l hl
    rcases readNewLines_out file s with h | ⟨lines, h⟩
    · rw [h] at hl; simp at hl
    · rw [h] at hl
      simp only [List.mem_filter, List.mem_map] at hl
      obtain ⟨⟨raw, hraw, hback⟩, hne⟩ := hl
      subst hback
      refine ⟨?_, stripEnds_idem isWsByte raw⟩
      simpa using hne
  · intro pos hch hpos hlt
    subst hpos
    constructor
    · simp only [readNewLines]
      rw [if_neg hch, if_pos hlt]
    · simpa using splitLinesAux_take
        ((file.drop (if file.length < s.last_position then 0 else s.last_position)).take
          (file.length - (if file.length < s.last_position then 0 else s.last_position))) []

theorem no_blank_lines_delivered_witness :
    (bytesOf "b,c" ≠ [] ∧ stripBytes (bytesOf "b,c") = bytesOf "b,c") ∧
    (readNewLines (bytesOf "a\n\n  \nb,c\n")
        { last_position := 2, last_known_size := 2 }).1.last_position =
      2 + (splitLinesAux []
        (((bytesOf "a\n\n  \nb,c\n").drop 2).take ((bytesOf "a\n\n  \nb,c\n").length - 2))).2 := by
  have h := no_blank_lines_delivered (bytesOf "a\n\n  \nb,c\n")
    { last_position := 2, last_known_size := 2 }
  exact ⟨h.1 (bytesOf "b,c") (by decide), (h.2 2 (by decide) (by decide) (by decide)).1⟩

/-! ## Theorems: statistics -/

/-- **C6** (code bug, data_display.py lines 161–165): the claim says values
that do not parse as finite numbers leave the aggregate unchanged and that the
displayed aggregate is the largest-magnitude *finite*-parsing value.  The code
uses bare `float(value_str)`, which accepts `"inf"` and `"nan"`: a `"nan"` fed
while no maximum is stored is installed (the `not in` branch) and — since every
IEEE comparison with `nan` is false — is never displaced by later finite
values; an `"inf"` always wins the magnitude comparison and displaces a finite
aggregate.  Only values `float()` rejects outright leave the aggregate
unchanged.  The finite-only example 5, -12, 3 → -12 does hold. -/
theorem max_magnitude_nonfinite_divergence :
    runMax [some PyFloat.nan, some (PyFloat.finite 5)] = some PyFloat.nan ∧
    runMax [some (PyFloat.finite 5), some PyFloat.inf] = some PyFloat.inf ∧
    observeValue (some (PyFloat.finite 5)) (some PyFloat.nan) = some (PyFloat.finite 5) ∧
    (∀ cur : Option PyFloat, observeValue cur none = cur) ∧
    runMax [some (PyFloat.finite 5), some (PyFloat.finite (-12)), some (PyFloat.finite 3)] =
      some (PyFloat.finite (-12)) := by
  exact ⟨rfl, rfl, rfl, fun cur => rfl, by decide⟩

theorem max_magnitude_nonfinite_divergence_witness :
    observeValue (some (PyFloat.finite 7)) none = some (PyFloat.finite 7) :=
  max_magnitude_nonfinite_divergence.2.2.2.1 (some (PyFloat.finite 7))

/-! ## Theorems: row decoding -/

/-- The value at the last occurrence of `n` among positional (name, value)
pairs: what a Python dict loop `result[name] = value` leaves at key `n`. -/
def lastVal (n : List Char) : List (List Char) → List (List Char) → Option (List Char)
  | [], _ => none
  | _ :: _, [] => none
  | n0 :: ns, v0 :: vs =>
    match lastVal n ns vs with
    | some v => some v
    | none => if n = n0 then some v0 else none

lemma lastVal_cons (n n0 v0 : List Char) (ns vs : List (List Char)) :
    lastVal n (n0 :: ns) (v0 :: vs) =
      match lastVal n ns vs with
      | some v => some v
      | none => if n = n0 then some v0 else none := rfl

lemma lastVal_of_not_mem (n : List Char) : ∀ (ns vs : List (List Char)),
    n ∉ ns → lastVal n ns vs = none := by
  intro ns
  induction ns with
  | nil => intro vs _; rfl
  | cons n0 ns2 ih =>
    intro vs hn
    cases vs with
    | nil => rfl
    | cons v0 vs2 =>
      rw [lastVal_cons, ih vs2 (fun h => hn (List.mem_cons.mpr (Or.inr h)))]
      exact if_neg (fun h : n = n0 => hn (List.mem_cons.mpr (Or.inl h)))

lemma lastVal_nodup (names : List (List Char)) : ∀ (values : List (List Char)) (i : Nat),
    names.Nodup → values.length = names.length → i < names.length →
    lastVal (names.getD i []) names values = some (values.getD i []) := by
  induction names with
  | nil => intro values i _ _ hi; simp at hi
  | cons n0 ns ih =>
    intro values i hnd hlen hi
    cases values with
    | nil => simp at hlen
    | cons v0 vs =>
      cases i with
      | zero =>
        simp only [List.getD_cons_zero]
        rw [lastVal_cons, lastVal_of_not_mem n0 ns vs (List.nodup_cons.mp hnd).1]
        simp
      | succ i2 =>
        simp only [List.getD_cons_succ]
        rw [lastVal_cons, ih vs i2 (List.nodup_cons.mp hnd).2
          (by simpa using hlen) (by simpa using hi)]

/-- The dict loop of `parse_row` leaves at key `n` the stripped value of the
last positional pair whose name is `n`. -/
lemma buildRecord_lookup : ∀ (names values : List (List Char)) (d : PyRecord)
    (n : List Char),
    ((names.zip values).foldl (fun d nv => d.set nv.1 (pstrip nv.2)) d).lookup n =
      (match lastVal n names values with
       | some v => some (pstrip v)
       | none => d.lookup n) := by
  intro names
  induction names with
  | nil => intro values d n; simp [lastVal]
  | cons n0 ns ih =>
    intro values d n
    cases values with
    | nil => simp [lastVal]
    | cons v0 vs =>
      rw [List.zip_cons_cons, List.foldl_cons, ih vs]
      rw [lastVal_cons]
      cases hlv : lastVal n ns vs with
      | some v => simp
      | none =>
        simp only []
        by_cases hqk : n = n0
        · subst hqk
          simp [PyDict.set]
        · simp [PyDict.set, hqk]

/-- The key-insertion step of a Python dict assignment. -/
def insKey (ks : List (List Char)) (n : List Char) : List (List Char) :=
  if n ∈ ks then ks else ks ++ [n]

lemma buildRecord_keys : ∀ (pairs : List (List Char × List Char)) (d : PyRecord),
    (pairs.foldl (fun d nv => d.set nv.1 (pstrip nv.2)) d).keys =
      pairs.foldl (fun ks nv => insKey ks nv.1) d.keys := by
  intro pairs
  induction pairs with
  | nil => intro d; rfl
  | cons p ps ih =>
    intro d
    rw [List.foldl_cons, List.foldl_cons, ih]
    congr 1
    simp [PyDict.set, insKey]

lemma insKeys_nodup : ∀ (ps : List (List Char × List Char)) (ks : List (List Char)),
    ks.Nodup → (ps.foldl (fun ks nv => insKey ks nv.1) ks).Nodup := by
  intro ps
  induction ps with
  | nil => intro ks h; exact h
  | cons p ps2 ih =>
    intro ks h
    rw [List.foldl_cons]
    apply ih
    unfold insKey
    split
    · exact h
    · rename_i hmem
      simp [List.nodup_append, h, hmem]

lemma insKeys_toFinset : ∀ (ps : List (List Char × List Char)) (ks : List (List Char)),
    (ps.foldl (fun ks nv => insKey ks nv.1) ks).toFinset =
      ks.toFinset ∪ (ps.map Prod.fst).toFinset := by
  intro ps
  induction ps with
  | nil => intro ks; simp
  | cons p ps2 ih =>
    intro ks
    rw [List.foldl_cons, ih]
    have e : (insKey ks p.1).toFinset = insert p.1 ks.toFinset := by
      unfold insKey
      split
      · rename_i hmem
        rw [Finset.insert_eq_self.mpr (by simpa using hmem)]
      · simp [List.toFinset_append, Finset.insert_eq, Finset.union_comm]
    rw [e]
    simp [Finset.insert_union, Finset.union_insert]

lemma lastVal_last_occurrence (n : List Char) : ∀ (names values : List (List Char)),
    values.length = names.length → n ∈ names →
    ∃ i, i < names.length ∧ names.getD i [] = n ∧
      (∀ j, j < names.length → names.getD j [] = n → j ≤ i) ∧
      lastVal n names values = some (values.getD i []) := by
  intro names
  induction names with
  | nil => intro values _ hn; simp at hn
  | cons n0 ns ih =>
    intro values hlen hn
    cases values with
    | nil => simp at hlen
    | cons v0 vs =>
      by_cases hmem : n ∈ ns
      · obtain ⟨i, hi, hname, hmax, hlv⟩ := ih vs (by simpa using hlen) hmem
        refine ⟨i + 1, by simpa using Nat.succ_lt_succ hi, by simpa using hname, ?_, ?_⟩
        · intro j hj hjn
          cases j with
          | zero => omega
          | succ j2 =>
            have := hmax j2 (by simpa using hj) (by simpa using hjn)
            omega
        · rw [lastVal_cons, hlv]
          simp
      · have hn0 : n = n0 := by
          rcases List.mem_cons.mp hn with h | h
          · exact h
          · exact absurd h hmem
        subst hn0
        refine ⟨0, Nat.succ_pos _, by simp, ?_, ?_⟩
        · intro j hj hjn
          cases j with
          | zero => exact le_refl 0
          | succ j2 =>
            exfalso
            apply hmem
            have hj2 : j2 < ns.length := by simpa using hj
            have hgd : ns.getD j2 [] = n := by simpa using hjn
            rw [← hgd]
            exact getD_mem ns [] j2 hj2
        · rw [lastVal_cons, lastVal_of_not_mem n ns vs hmem]
          simp

lemma getD_zip (l₁ l₂ : List (List Char)) (i : Nat) (h1 : i < l₁.length)
    (h2 : i < l₂.length) :
    (l₁.zip l₂).getD i ([], []) = (l₁.getD i [], l₂.getD i []) := by
  have hz : i < (l₁.zip l₂).length := by rw [List.length_zip]; omega
  rw [List.getD_eq_getElem _ _ hz, List.getD_eq_getElem _ _ h1, List.getD_eq_getElem _ _ h2]
  simp


/-- The parser state `_parse_header` leaves behind, given the parsed name and
unit columns: `column_count` is always the number of columns
(csv_parser.py line 44). -/
def mkParser (names units : List (List Char)) : CSVParser :=
  { column_names := names, column_units := units, column_count := names.length }

/-- **C7** (row decoding): for every input line, decoding returns `none` (not
an exception) when the tokenized field count differs from the schema's arity,
and otherwise returns a record mapping the schema's column names positionally
to the line's fields with surrounding whitespace trimmed from each value
(for a schema without duplicate names).  `parseRow` is a pure function of the
parser and the line, so a skipped line cannot affect the decoding of the next
well-formed line. -/
theorem row_decoding_arity_and_zip (names units : List (List Char)) (row : List Char)
    (hnd : names.Nodup) :
    ((splitFields row).length ≠ names.length →
      parseRow (mkParser names units) row = none) ∧
    ((splitFields row).length = names.length →
      ∃ record, parseRow (mkParser names units) row = some record ∧
        ∀ i, i < names.length →
          record.lookup (names.getD i []) =
            some (pstrip ((splitFields row).getD i []))) := by
  constructor
  · intro hne
    simp only [parseRow, mkParser]
    rw [if_pos hne]
  · intro heq
    refine ⟨(names.zip (splitFields row)).foldl
        (fun d nv => d.set nv.1 (pstrip nv.2)) PyDict.empty, ?_, ?_⟩
    · simp only [parseRow, mkParser]
      rw [if_neg (by omega : ¬ (splitFields row).length ≠ names.length)]
    · intro i hi
      rw [buildRecord_lookup names (splitFields row) PyDict.empty (names.getD i []),
        lastVal_nodup names (splitFields row) i hnd heq hi]

theorem row_decoding_arity_and_zip_witness :
    parseRow (mkParser ["a".data, "b".data, "c".data] [[], [], []]) "1,2".data = none ∧
    ∃ record,
      parseRow (mkParser ["a".data, "b".data, "c".data] [[], [], []]) "1,2,3".data =
        some record ∧
      record.lookup "a".data = some "1".data := by
  constructor
  · exact (row_decoding_arity_and_zip ["a".data, "b".data, "c".data] [[], [], []]
      "1,2".data (by decide)).1 (by decide)
  · obtain ⟨record, hrec, hlook⟩ :=
      (row_decoding_arity_and_zip ["a".data, "b".data, "c".data] [[], [], []]
        "1,2,3".data (by decide)).2 (by decide)
    refine ⟨record, hrec, ?_⟩
    have h0 := hlook 0 (by decide)
    have e1 : (["a".data, "b".data, "c".data] : List (List Char)).getD 0 [] = "a".data := rfl
    have e2 : pstrip ((splitFields "1,2,3".data).getD 0 []) = "1".data := by decide
    rw [e1, e2] at h0
    exact h0

/-- **C10** (duplicate column names collapse): for a header that contains the
same column name more than once, decoding a row with the correct field count
returns a record with fewer entries than the schema's arity, in which each
name maps to the trimmed field at its last occurrence's position, while the
ordered (name, unit) list of `get_column_info` still reports all arity entries
in header order. -/
theorem duplicate_names_collapse (names units : List (List Char)) (row : List Char)
    (hdup : ¬ names.Nodup) (hlen : (splitFields row).length = names.length)
    (hul : units.length = names.length) :
    ∃ record, parseRow (mkParser names units) row = some record ∧
      record.size < names.length ∧
      (∀ n ∈ names, ∃ i, i < names.length ∧ names.getD i [] = n ∧
        (∀ j, j < names.length → names.getD j [] = n → j ≤ i) ∧
        record.lookup n = some (pstrip ((splitFields row).getD i []))) ∧
      (getColumnInfo (mkParser names units)).length = names.length ∧
      (∀ i, i < names.length →
        (getColumnInfo (mkParser names units)).getD i ([], []) =
          (names.getD i [], units.getD i [])) := by
  refine ⟨(names.zip (splitFields row)).foldl
        (fun d nv => d.set nv.1 (pstrip nv.2)) PyDict.empty, ?_, ?_, ?_, ?_, ?_⟩
  · simp only [parseRow, mkParser]
    rw [if_neg (by omega : ¬ (splitFields row).length ≠ names.length)]
  · have hkeys := buildRecord_keys (names.zip (splitFields row)) PyDict.empty
    have hmapfst : ((names.zip (splitFields row)).map Prod.fst) = names :=
      List.map_fst_zip names (splitFields row) (by omega)
    have hnodup : ((names.zip (splitFields row)).foldl
        (fun ks nv => insKey ks nv.1) (PyDict.empty : PyRecord).keys).Nodup :=
      insKeys_nodup _ _ (by simp [PyDict.empty])
    have hfin := insKeys_toFinset (names.zip (splitFields row)) (PyDict.empty : PyRecord).keys
    rw [hmapfst] at hfin
    have hfin2 : ((names.zip (splitFields row)).foldl
        (fun ks nv => insKey ks nv.1) (PyDict.empty : PyRecord).keys).toFinset = names.toFinset := by
      rw [hfin]; simp [PyDict.empty]
    have hcard : ((names.zip (splitFields row)).foldl
        (fun ks nv => insKey ks nv.1) (PyDict.empty : PyRecord).keys).length = names.dedup.length := by
      rw [← List.toFinset_card_of_nodup hnodup, hfin2, List.card_toFinset]
    have hstrict : names.dedup.length < names.length := by
      rcases Nat.lt_or_ge names.dedup.length names.length with h1 | h1
      · exact h1
      · have heq2 : names.dedup = names :=
          List.Sublist.eq_of_length (List.dedup_sublist names)
            (le_antisymm ((List.dedup_sublist names).length_le) h1)
        exact absurd (heq2 ▸ List.nodup_dedup names) hdup
    unfold PyDict.size
    rw [hkeys, hcard]
    exact hstrict
  · intro n hn
    obtain ⟨i, hi, hname, hmax, hlv⟩ :=
      lastVal_last_occurrence n names (splitFields row) hlen hn
    refine ⟨i, hi, hname, hmax, ?_⟩
    rw [buildRecord_lookup names (splitFields row) PyDict.empty n, hlv]
  · simp only [getColumnInfo, mkParser]
    rw [List.length_zip]
    omega
  · intro i hi
    simp only [getColumnInfo, mkParser]
    exact getD_zip names units i hi (by omega)

theorem duplicate_names_collapse_witness :
    ∃ record,
      parseRow (mkParser ["a".data, "b".data, "a".data] [[], [], []]) "1,2,3".data =
        some record ∧
      record.size < 3 ∧ record.lookup "a".data = some "3".data := by
  obtain ⟨record, hrec, hsize, hlast, _, _⟩ :=
    duplicate_names_collapse ["a".data, "b".data, "a".data] [[], [], []] "1,2,3".data
      (by decide) (by decide) (by decide)
  obtain ⟨i, hi, hname, hmax, hlook⟩ := hlast "a".data (by decide)
  have hge : 2 ≤ i := hmax 2 (by decide) (by decide)
  have hieq : i = 2 := by
    have h3 : i < 3 := by simpa using hi
    omega
  subst hieq
  refine ⟨record, hrec, by simpa using hsize, ?_⟩
  have e2 : pstrip ((splitFields "1,2,3".data).getD 2 []) = "3".data := by decide
  rw [e2] at hlook
  exact hlook

/-! ## Theorems: header parsing -/

lemma getD_take {α : Type} (l : List α) (m idx : Nat) (d : α) (h : idx < m) :
    (l.take m).getD idx d = l.getD idx d := by
  simp [List.getD_eq_getElem?_getD, List.getElem?_take, h]

lemma drop_length_sub_one {α : Type} (l : List α) (a d : α) (h : l.getLast? = some a) :
    l.drop (l.length - 1) = [a] := by
  have hne : l ≠ [] := by intro h2; rw [h2] at h; simp at h
  have hlen : (l.drop (l.length - 1)).length = 1 := by
    rw [List.length_drop]
    have : 0 < l.length := List.length_pos.mpr hne
    omega
  have hgd : (l.drop (l.length - 1)).getD 0 d = l.getD (l.length - 1) d := by
    rw [getD_drop]
    simp
  have ha : l.getD (l.length - 1) d = a := by
    rw [getLast?_eq_getD d l hne] at h
    simpa using h
  cases hd : l.drop (l.length - 1) with
  | nil => rw [hd] at hlen; simp at hlen
  | cons x t =>
    rw [hd] at hlen hgd
    have ht : t = [] := by simpa using hlen
    subst ht
    simp only [List.getD_cons_zero] at hgd
    rw [hgd, ha]

lemma dropTrail_ne_nil {α : Type} (p : α → Bool) (l : List α) (a : α)
    (hh : l.head? = some a) (ha : p a = false) : dropTrail p l ≠ [] := by
  intro hemp
  unfold dropTrail at hemp
  rw [List.reverse_eq_nil_iff, List.dropWhile_eq_nil_iff] at hemp
  have hmem : a ∈ l.reverse := by
    rw [List.mem_reverse]
    cases l with
    | nil => simp at hh
    | cons c t =>
      simp only [List.head?_cons, Option.some.injEq] at hh
      subst hh
      simp
  have := hemp a hmem
  rw [ha] at this
  exact Bool.false_ne_true this

lemma mem_dropTrail {α : Type} (p : α → Bool) (l : List α) :
    ∀ x ∈ dropTrail p l, x ∈ l := by
  intro x hx
  unfold dropTrail at hx
  rw [List.mem_reverse] at hx
  have := (List.dropWhile_sublist p).subset hx
  rwa [List.mem_reverse] at this

lemma getD_map {α β : Type} (f : α → β) (l : List α) (k : Nat) (d : β) (d2 : α)
    (hk : k < l.length) :
    (l.map f).getD k d = f (l.getD k d2) := by
  rw [List.getD_eq_getElem _ _ (by simpa using hk), List.getD_eq_getElem _ _ hk]
  simp

lemma getLast?_append_singleton {α : Type} (l : List α) (a : α) :
    (l ++ [a]).getLast? = some a := by
  induction l with
  | nil => rfl
  | cons b t ih =>
    rw [List.cons_append]
    cases hq : t ++ [a] with
    | nil => exact absurd hq (by simp)
    | cons c t2 =>
      rw [List.getLast?_cons_cons, ← hq]
      exact ih

/-- When the stripped field decomposes as `name ++ "(" ++ unit ++ ")"` with a
nonempty `)`-free unit and a nonempty newline-free name whose every inner `(`
is closed within the name — so this group is the outermost trailing
parenthesized group, the one the lazy `.+?` makes the regex select — the match
of `_parse_header` splits exactly there, stripping both groups. -/
lemma parseHeaderField_with_unit (field n u : List Char)
    (hs : pstrip field = n ++ '(' :: (u ++ [')']))
    (hn : n ≠ []) (hu : u ≠ []) (hru : ')' ∉ u) (hnn : '\n' ∉ n)
    (hclosed : ∀ i, i < n.length → n.getD i ' ' = '(' →
      ∃ j, j < n.length ∧ i < j ∧ n.getD j ' ' = ')') :
    parseHeaderField field = (pstrip n, pstrip u) := by
  set s := pstrip field with hsdef
  have hslen : s.length = n.length + u.length + 2 := by
    rw [hs]; simp only [List.length_append, List.length_cons, List.length_nil]; omega
  have hupos : 0 < u.length := List.length_pos.mpr hu
  have hnpos : 0 < n.length := List.length_pos.mpr hn
  have hpar : s.getD n.length ' ' = '(' := by
    rw [hs]
    have h0 := getD_append_right n ('(' :: (u ++ [')'])) 0 ' '
    simpa using h0
  have hdrop : s.drop (n.length + 1) = u ++ [')'] := by
    rw [hs]
    have e : n ++ '(' :: (u ++ [')']) = (n ++ ['(']) ++ (u ++ [')']) := by simp
    have e2 : n.length + 1 = (n ++ ['(']).length := by simp
    rw [e, e2, List.drop_left]
  have htake : s.take n.length = n := by
    rw [hs]
    exact List.take_left n _
  have hcontent : (s.drop (n.length + 1)).take (s.length - 2 - n.length) = u := by
    rw [hdrop]
    have e : s.length - 2 - n.length = u.length := by omega
    rw [e]
    exact List.take_left u [')']
  have hshead : ∀ a ∈ s.head?, isPyWs a = false := stripEnds_head isPyWs field
  have hnhead : n.head? = s.head? := by
    rw [hs]
    cases n with
    | nil => exact absurd rfl hn
    | cons c t => simp
  have hdt_ne : dropTrailWs n ≠ [] := by
    cases hhd : n.head? with
    | none => rw [List.head?_eq_none_iff] at hhd; exact absurd hhd hn
    | some a =>
      refine dropTrail_ne_nil isPyWs n a hhd (hshead a ?_)
      rw [Option.mem_def, ← hnhead]
      exact hhd
  have hvalid : validOpen s n.length = true := by
    unfold validOpen
    rw [hpar, hcontent, htake]
    simp only [Bool.and_eq_true]
    refine ⟨⟨⟨⟨?_, ?_⟩, ?_⟩, ?_⟩, ?_⟩
    · simp
    · simp only [decide_eq_true_eq]
      omega
    · rw [List.all_eq_true]
      intro c hc
      simp only [bne_iff_ne, ne_eq]
      intro hcc
      exact hru (hcc ▸ hc)
    · simpa using hdt_ne
    · rw [List.all_eq_true]
      intro c hc
      simp only [bne_iff_ne, ne_eq]
      intro hcc
      exact hnn (hcc ▸ mem_dropTrail isPyWs n c hc)
  have hinvalid : ∀ i2, i2 < n.length → validOpen s i2 = false := by
    intro i2 hi2
    by_cases hploc : n.getD i2 ' ' = '('
    · obtain ⟨j, hj, hij, hjr⟩ := hclosed i2 hi2 hploc
      cases hvo : validOpen s i2 with
      | false => rfl
      | true =>
        exfalso
        unfold validOpen at hvo
        simp only [Bool.and_eq_true] at hvo
        obtain ⟨⟨⟨⟨hv1, hv2⟩, hv3⟩, hv4⟩, hv5⟩ := hvo
        have hclen : ((s.drop (i2 + 1)).take (s.length - 2 - i2)).length
            = s.length - 2 - i2 := by
          rw [List.length_take, List.length_drop]
          omega
        have hidx : j - i2 - 1 < s.length - 2 - i2 := by omega
        have hval : ((s.drop (i2 + 1)).take (s.length - 2 - i2)).getD (j - i2 - 1) ' '
            = ')' := by
          rw [getD_take _ _ _ _ hidx, getD_drop]
          have e : i2 + 1 + (j - i2 - 1) = j := by omega
          rw [e, hs, getD_append_left _ _ _ _ hj]
          exact hjr
        have hmem2 : (')' : Char) ∈ (s.drop (i2 + 1)).take (s.length - 2 - i2) := by
          rw [← hval]
          exact getD_mem _ ' ' _ (by rw [hclen]; exact hidx)
        have hfalse := List.all_eq_true.mp hv3 ')' hmem2
        simp at hfalse
    · cases hvo : validOpen s i2 with
      | false => rfl
      | true =>
        exfalso
        unfold validOpen at hvo
        simp only [Bool.and_eq_true] at hvo
        have hv1 := hvo.1.1.1.1
        rw [hs, getD_append_left _ _ _ _ hi2, beq_iff_eq] at hv1
        exact hploc hv1
  have hfound : findOpen s = some n.length := by
    unfold findOpen
    have hrange : n.length < (List.range s.length).length := by
      rw [List.length_range]; omega
    have hgdr : (List.range s.length).getD n.length 0 = n.length := by
      rw [List.getD_eq_getElem _ _ hrange]
      simp
    have h1 := find?_eq_some_getD (validOpen s) 0 (List.range s.length) n.length hrange
      (by rw [hgdr]; exact hvalid)
      (fun j hj => by
        have hjr2 : (List.range s.length).getD j 0 = j := by
          rw [List.getD_eq_getElem _ _ (by rw [List.length_range]; omega)]
          simp
        rw [hjr2]
        exact hinvalid j hj)
    rw [hgdr] at h1
    exact h1
  have hglast : s.getLast? = some ')' := by
    rw [hs, show n ++ '(' :: (u ++ [')']) = (n ++ '(' :: u) ++ [')'] by simp]
    exact getLast?_append_singleton _ _
  simp only [parseHeaderField]
  rw [← hsdef, if_pos hglast, hfound]
  show (pstrip (s.take n.length),
      pstrip ((s.drop (n.length + 1)).take (s.length - 2 - n.length))) = (pstrip n, pstrip u)
  rw [htake, hcontent]

/-- When the stripped field has no trailing parenthesized group with nonempty
`)`-free content, the regex of `_parse_header` cannot match: the whole stripped
field is the name and the unit is empty. -/
lemma parseHeaderField_no_unit (field : List Char)
    (hno : ¬ ∃ n u : List Char, pstrip field = n ++ '(' :: (u ++ [')']) ∧
      u ≠ [] ∧ ')' ∉ u) :
    parseHeaderField field = (pstrip field, []) := by
  set s := pstrip field with hsdef
  by_cases hlast : s.getLast? = some ')'
  · cases hfo : findOpen s with
    | none =>
      simp only [parseHeaderField]
      rw [← hsdef, if_pos hlast, hfo]
    | some i =>
      exfalso
      apply hno
      unfold findOpen at hfo
      have hpi : validOpen s i = true := List.find?_some hfo
      have hmemr : i ∈ List.range s.length := List.mem_of_find?_eq_some hfo
      have hilen : i < s.length := by simpa using hmemr
      unfold validOpen at hpi
      simp only [Bool.and_eq_true] at hpi
      obtain ⟨⟨⟨⟨hv1, hv2⟩, hv3⟩, hv4⟩, hv5⟩ := hpi
      rw [beq_iff_eq] at hv1
      have hv2p : i + 2 < s.length := by simpa using hv2
      have h1 : s = s.take i ++ s.drop i := (List.take_append_drop i s).symm
      have h2 : s.drop i = s.getD i ' ' :: s.drop (i + 1) := by
        rw [List.getD_eq_getElem s ' ' hilen]
        exact List.drop_eq_getElem_cons hilen
      have h3 : s.drop (i + 1) =
          (s.drop (i + 1)).take (s.length - 2 - i) ++ [')'] := by
        have h4 : s.drop (i + 1) = (s.drop (i + 1)).take (s.length - 2 - i) ++
            (s.drop (i + 1)).drop (s.length - 2 - i) := (List.take_append_drop _ _).symm
        have h5 : (s.drop (i + 1)).drop (s.length - 2 - i) = s.drop (s.length - 1) := by
          rw [List.drop_drop]
          congr 1
          omega
        have h6 : s.drop (s.length - 1) = [')'] :=
          drop_length_sub_one s ')' ' ' hlast
        conv_lhs => rw [h4]
        rw [h5, h6]
      refine ⟨s.take i, (s.drop (i + 1)).take (s.length - 2 - i), ?_, ?_, ?_⟩
      · conv_lhs => rw [h1, h2, hv1, h3]
      · intro hemp
        have hl0 : ((s.drop (i + 1)).take (s.length - 2 - i)).length = 0 := by
          rw [hemp]; rfl
        rw [List.length_take, List.length_drop] at hl0
        omega
      · intro hmem2
        have hfalse := List.all_eq_true.mp hv3 ')' hmem2
        simp at hfalse
  · simp only [parseHeaderField]
    rw [← hsdef, if_neg hlast]

/-- **C8, amended** (header field parsing): for a header field whose stripped
text decomposes as `NAME ++ "(" ++ UNIT ++ ")"` where `UNIT` is nonempty and
`)`-free, `NAME` is nonempty and newline-free, and every `(` inside `NAME` is
closed by a later `)` inside `NAME` — i.e. the group is the *outermost*
trailing parenthesized group, the one the regex's lazy `.+?` selects — the
parsed schema records `NAME` trimmed as the name and `UNIT` trimmed as the
unit; for a field with no trailing parenthesized group with nonempty `)`-free
content, the whole trimmed field is the name and the unit is empty. -/
theorem header_field_name_unit (fields : List (List Char)) (k : Nat)
    (hk : k < fields.length) :
    (∀ n u : List Char, pstrip (fields.getD k []) = n ++ '(' :: (u ++ [')']) →
      n ≠ [] → u ≠ [] → ')' ∉ u → '\n' ∉ n →
      (∀ i, i < n.length → n.getD i ' ' = '(' →
        ∃ j, j < n.length ∧ i < j ∧ n.getD j ' ' = ')') →
      (parseHeader fields).column_names.getD k [] = pstrip n ∧
      (parseHeader fields).column_units.getD k [] = pstrip u) ∧
    ((¬ ∃ n u : List Char, pstrip (fields.getD k []) = n ++ '(' :: (u ++ [')']) ∧
        u ≠ [] ∧ ')' ∉ u) →
      (parseHeader fields).column_names.getD k [] = pstrip (fields.getD k []) ∧
      (parseHeader fields).column_units.getD k [] = []) := by
  constructor
  · intro n u hs hn hu hru hnn hclosed
    have hpf := parseHeaderField_with_unit (fields.getD k []) n u hs hn hu hru hnn hclosed
    constructor
    · simp only [parseHeader]
      rw [getD_map (fun h => (parseHeaderField h).1) fields k [] [] hk]
      simp only [hpf]
    · simp only [parseHeader]
      rw [getD_map (fun h => (parseHeaderField h).2) fields k [] [] hk]
      simp only [hpf]
  · intro hno
    have hpf := parseHeaderField_no_unit (fields.getD k []) hno
    constructor
    · simp only [parseHeader]
      rw [getD_map (fun h => (parseHeaderField h).1) fields k [] [] hk]
      simp only [hpf]
    · simp only [parseHeader]
      rw [getD_map (fun h => (parseHeaderField h).2) fields k [] [] hk]
      simp only [hpf]

/-- **C8 counterexample**: the claim as stated fails on the code.  The field
`"A (b (u)"` ends in the trailing parenthesized group `"(u)"` (content `"u"`,
no `)` inside; the text before it, trimmed, is `"A (b"`), yet the schema
records name `"A"` and unit `"b (u"`: the lazy regex takes the outermost
viable group, not the innermost trailing one.  On `"A (u )"` the group's
content is `"u "`, yet the recorded unit is the stripped `"u"`.  On `"(u)"`
(empty text before the group) the schema records the whole field as the name
with an empty unit, not name `""` and unit `"u"`.  And on `"a\nb (u)"`
(newline inside the would-be name, which `.` cannot match) the schema again
records the whole field with an empty unit. -/
theorem header_field_claim_counterexample :
    (pstrip "A (b (u)".data = "A (b ".data ++ '(' :: ("u".data ++ [')']) ∧
      "u".data ≠ [] ∧ ')' ∉ "u".data ∧ pstrip "A (b ".data = "A (b".data) ∧
    (parseHeader ["A (b (u)".data]).column_names.getD 0 [] = "A".data ∧
    (parseHeader ["A (b (u)".data]).column_units.getD 0 [] = "b (u".data ∧
    ¬ ((parseHeader ["A (b (u)".data]).column_names.getD 0 [] = "A (b".data ∧
      (parseHeader ["A (b (u)".data]).column_units.getD 0 [] = "u".data) ∧
    (pstrip "A (u )".data = "A ".data ++ '(' :: ("u ".data ++ [')']) ∧
      ')' ∉ "u ".data) ∧
    (parseHeader ["A (u )".data]).column_units.getD 0 [] = "u".data ∧
    ("u".data : List Char) ≠ "u ".data ∧
    (pstrip "(u)".data = ([] : List Char) ++ '(' :: ("u".data ++ [')']) ∧
      (parseHeader ["(u)".data]).column_names.getD 0 [] = "(u)".data ∧
      (parseHeader ["(u)".data]).column_units.getD 0 [] = []) ∧
    (pstrip "a\nb (u)".data = "a\nb ".data ++ '(' :: ("u".data ++ [')']) ∧
      (parseHeader ["a\nb (u)".data]).column_names.getD 0 [] = "a\nb (u)".data ∧
      (parseHeader ["a\nb (u)".data]).column_units.getD 0 [] = []) := by
  decide

theorem header_field_name_unit_witness :
    ((parseHeader ["Foo Bar (unit)".data]).column_names.getD 0 [] = "Foo Bar".data ∧
      (parseHeader ["Foo Bar (unit)".data]).column_units.getD 0 [] = "unit".data) ∧
    ((parseHeader ["Baz".data]).column_names.getD 0 [] = "Baz".data ∧
      (parseHeader ["Baz".data]).column_units.getD 0 [] = []) := by
  constructor
  · have hA := (header_field_name_unit ["Foo Bar (unit)".data] 0 (by decide)).1
      "Foo Bar ".data "unit".data (by decide) (by decide) (by decide) (by decide)
      (by decide) (by decide)
    have e : pstrip "Foo Bar ".data = "Foo Bar".data := by decide
    have e2 : pstrip "unit".data = "unit".data := by decide
    rw [e, e2] at hA
    exact hA
  · have hno : ¬ ∃ n u : List Char, pstrip "Baz".data = n ++ '(' :: (u ++ [')']) ∧
        u ≠ [] ∧ ')' ∉ u := by
      rintro ⟨n, u, heq, -, -⟩
      have h1 : (pstrip "Baz".data).getLast? = some ')' := by
        rw [heq, show n ++ '(' :: (u ++ [')']) = (n ++ '(' :: u) ++ [')'] by simp]
        exact getLast?_append_singleton _ _
      have h2 : (pstrip "Baz".data).getLast? = some 'z' := by decide
      rw [h2] at h1
      simp at h1
    have hB := (header_field_name_unit ["Baz".data] 0 (by decide)).2 hno
    refine ⟨?_, hB.2⟩
    rw [hB.1]
    decide

/-! ## Theorems: the backfill path -/

/-- **C3** (code bug, main_window.py line 263): the claim says the last
complete data row of an existing file is decoded and rendered as the current
value set without being tracked.  `_read_existing_data` does locate that row,
but then calls `update_data(data, update_display=True, track_values=False)`
while `DataDisplayWidget.update_data` accepts no `track_values` parameter
(data_display.py line 149); the call raises `TypeError`, the enclosing
`except` swallows it, and the row is neither rendered nor tracked.  At the
input `"h1,h2\n1,2\n"`: the backfill search finds the row, every keyword call
passing `track_values` raises, and the display state is unchanged —
`current_data` stays `none`, so nothing is rendered. -/
theorem backfill_typeerror_leaves_display_unchanged
    (pv : List Char → Option PyFloat) :
    (findBackfillRow (parseHeader ["h1".data, "h2".data])
        (splitNl "h1,h2\n1,2\n".data) 1).isSome = true ∧
    (∀ data : PyRecord, ∀ st : DisplayState,
      updateDataKwCall pv st data ["update_display", "track_values"] =
        PyCall.typeError) ∧
    readExistingData pv (parseHeader ["h1".data, "h2".data]) DisplayState.init
        "h1,h2\n1,2\n".data = DisplayState.init ∧
    (readExistingData pv (parseHeader ["h1".data, "h2".data]) DisplayState.init
        "h1,h2\n1,2\n".data).current_data = none := by
  exact ⟨by decide, fun data st => rfl, rfl, rfl⟩

theorem backfill_typeerror_leaves_display_unchanged_witness :
    readExistingData (fun _ => none) (parseHeader ["h1".data, "h2".data])
        DisplayState.init "h1,h2\n1,2\n".data = DisplayState.init :=
  (backfill_typeerror_leaves_display_unchanged (fun _ => none)).2.2.1
